import Mathlib

/-!
Shallow embedding of the statistics core of bpp-popgen's
MultilocusGenotypeStatistics (src/Bpp/PopGen/MultilocusGenotypeStatistics.h).
The repository ships only the header (declarations, structs and doc
comments); the bodies of the static member functions live in a .cpp file
that is not part of the source tree at hand, so every operation below is
modelled from the specification document, faithful to its wording, with
IEEE doubles represented by exact rationals (and by reals where a
logarithm or square root is taken).  Fallible functions return
Except PgError.
-/

namespace BppPopGen

/-- A per-locus genotype record: missing, homozygous with one allele id, or
heterozygous with two allele ids (diploid model). -/
inductive MonolocusGenotype where
  | missing : MonolocusGenotype
  | homozygous (a : Nat) : MonolocusGenotype
  | heterozygous (a1 a2 : Nat) : MonolocusGenotype
deriving DecidableEq, Repr

/-- A multilocus genotype is the ordered sequence of per-locus records of
one individual. -/
abbrev MultilocusGenotype := List MonolocusGenotype

/-- Modelled from the spec: the genotype container (owned outside the
core) maps each individual to its group id; groups are mutually exclusive
so one (groupId, genotype) pair per individual captures it. -/
structure PolymorphismMultiGContainer where
  individuals : List (Nat × MultilocusGenotype)
deriving DecidableEq, Repr

/-- Error taxonomy of the core (spec section 7): bounds violation carrying
the offending index and the max valid index, zero-division / degenerate
sample, domain violation (log or sqrt argument), and an unrecognized
distance-method name carrying the offending string. -/
inductive PgError where
  | indexOutOfBounds (index maxIndex : Nat) : PgError
  | zeroDivision : PgError
  | domainError : PgError
  | badArgument (method : String) : PgError
deriving DecidableEq, Repr

deriving instance DecidableEq for Except

/-- Variance components a (among group), b (among individual within
group), c (within individual), per Weir and Cockerham 1984. -/
structure VarComp where
  a : ℚ
  b : ℚ
  c : ℚ
deriving DecidableEq, Repr

/-- The three F statistics derived from one VarComp record. -/
structure Fstats where
  Fit : ℚ
  Fst : ℚ
  Fis : ℚ
deriving DecidableEq, Repr

/-- Result of a permutation test: observed statistic and the two
empirical tail fractions. -/
structure PermResults where
  statistic : ℚ
  percentSup : ℚ
  percentInf : ℚ
deriving DecidableEq, Repr

/-- The multilocus genotypes of the individuals belonging to one of the
requested groups, in container order. -/
def selectedGenotypes (pmgc : PolymorphismMultiGContainer) (groups : List Nat) :
    List MultilocusGenotype :=
  (pmgc.individuals.filter (fun ind => groups.contains ind.1)).map Prod.snd

/-- Walks the selected genotypes and reports the first whose locus count
is too small, as an index-out-of-bounds error naming the requested index
and the max valid index of that genotype. -/
def checkLocusAux (locusPosition : Nat) : List MultilocusGenotype → Except PgError Unit
  | [] => .ok ()
  | mg :: rest =>
    if locusPosition < mg.length then checkLocusAux locusPosition rest
    else .error (.indexOutOfBounds locusPosition (mg.length - 1))

/-- Modelled from the spec: every statistic function validates the locus
position against every genotype's locus count in the selected groups and
fails with a bounds-violation condition naming the offending index and the
max valid index. -/
def checkLocus (pmgc : PolymorphismMultiGContainer) (locusPosition : Nat)
    (groups : List Nat) : Except PgError Unit :=
  checkLocusAux locusPosition (selectedGenotypes pmgc groups)

/-- The per-locus records of the selected individuals at one locus
(defaulting to missing, which never happens once checkLocus succeeded). -/
def recordsAt (pmgc : PolymorphismMultiGContainer) (locusPosition : Nat)
    (groups : List Nat) : List MonolocusGenotype :=
  (selectedGenotypes pmgc groups).map (fun mg => mg.getD locusPosition .missing)

/-- The allele copies carried by one record: two for homozygous, one of
each for heterozygous, none for missing. -/
def alleleListOfRecord : MonolocusGenotype → List Nat
  | .missing => []
  | .homozygous a => [a, a]
  | .heterozygous a1 a2 => [a1, a2]

/-- The allele copies appearing in heterozygous records only. -/
def hetListOfRecord : MonolocusGenotype → List Nat
  | .heterozygous a1 a2 => [a1, a2]
  | _ => []

/-- True for a non-missing record. -/
def isNonMissing : MonolocusGenotype → Bool
  | .missing => false
  | _ => true

/-- True for a heterozygous (bi-allelic) record. -/
def isHeterozygous : MonolocusGenotype → Bool
  | .heterozygous _ _ => true
  | _ => false

/-- All allele copies (gametes) observed at a locus in a set of groups. -/
def gameteListAt (pmgc : PolymorphismMultiGContainer) (locusPosition : Nat)
    (groups : List Nat) : List Nat :=
  (recordsAt pmgc locusPosition groups).flatMap alleleListOfRecord

/-- All allele copies observed inside heterozygous records at a locus. -/
def hetListAt (pmgc : PolymorphismMultiGContainer) (locusPosition : Nat)
    (groups : List Nat) : List Nat :=
  (recordsAt pmgc locusPosition groups).flatMap hetListOfRecord

/-- Number of non-missing records at a locus for a set of groups
(pure count, before the bounds check). -/
def nonMissingAt (pmgc : PolymorphismMultiGContainer) (locusPosition : Nat)
    (groups : List Nat) : Nat :=
  (recordsAt pmgc locusPosition groups).countP isNonMissing

/-- Modelled from the spec: ids of the alleles observed at one locus for a
set of groups (each id once). -/
def getAllelesIdsForGroups (pmgc : PolymorphismMultiGContainer)
    (locusPosition : Nat) (groups : List Nat) : Except PgError (List Nat) := do
  let _ ← checkLocus pmgc locusPosition groups
  pure (gameteListAt pmgc locusPosition groups).dedup

/-- Modelled from the spec: total allele copies counted (2 per non-missing
record, 0 for missing). -/
def countGametesForGroups (pmgc : PolymorphismMultiGContainer)
    (locusPosition : Nat) (groups : List Nat) : Except PgError Nat := do
  let _ ← checkLocus pmgc locusPosition groups
  pure (gameteListAt pmgc locusPosition groups).length

/-- Modelled from the spec: per-allele copy counts — homozygous(x)
contributes 2 to x, heterozygous(x,y) contributes 1 to x and 1 to y. -/
def getAllelesMapForGroups (pmgc : PolymorphismMultiGContainer)
    (locusPosition : Nat) (groups : List Nat) :
    Except PgError (List (Nat × Nat)) := do
  let _ ← checkLocus pmgc locusPosition groups
  let gl := gameteListAt pmgc locusPosition groups
  pure (gl.dedup.map fun a => (a, gl.count a))

/-- Modelled from the spec: allele counts divided by the gamete count;
fails with a zero-division condition when the gamete count is 0. -/
def getAllelesFrqForGroups (pmgc : PolymorphismMultiGContainer)
    (locusPosition : Nat) (groups : List Nat) :
    Except PgError (List (Nat × ℚ)) := do
  let _ ← checkLocus pmgc locusPosition groups
  let gl := gameteListAt pmgc locusPosition groups
  if gl.length = 0 then throw .zeroDivision
  else pure (gl.dedup.map fun a => (a, (gl.count a : ℚ) / (gl.length : ℚ)))

/-- Modelled from the spec: number of individuals whose record at the
locus is not missing. -/
def countNonMissingForGroups (pmgc : PolymorphismMultiGContainer)
    (locusPosition : Nat) (groups : List Nat) : Except PgError Nat := do
  let _ ← checkLocus pmgc locusPosition groups
  pure (nonMissingAt pmgc locusPosition groups)

/-- Modelled from the spec: number of heterozygous (bi-allelic) records at
the locus. -/
def countBiAllelicForGroups (pmgc : PolymorphismMultiGContainer)
    (locusPosition : Nat) (groups : List Nat) : Except PgError Nat := do
  let _ ← checkLocus pmgc locusPosition groups
  pure ((recordsAt pmgc locusPosition groups).countP isHeterozygous)

/-- Modelled from the spec: per-allele count of appearances inside
heterozygous records (each heterozygous(x,y) increments both x and y). -/
def countHeterozygousForGroups (pmgc : PolymorphismMultiGContainer)
    (locusPosition : Nat) (groups : List Nat) :
    Except PgError (List (Nat × Nat)) := do
  let _ ← checkLocus pmgc locusPosition groups
  let hl := hetListAt pmgc locusPosition groups
  pure (hl.dedup.map fun a => (a, hl.count a))

/-- Modelled from the spec: heterozygote counts divided by the non-missing
count; fails with a zero-division condition when that count is 0. -/
def getHeterozygousFrqForGroups (pmgc : PolymorphismMultiGContainer)
    (locusPosition : Nat) (groups : List Nat) :
    Except PgError (List (Nat × ℚ)) := do
  let _ ← checkLocus pmgc locusPosition groups
  let n := nonMissingAt pmgc locusPosition groups
  if n = 0 then throw .zeroDivision
  else
    let hl := hetListAt pmgc locusPosition groups
    pure (hl.dedup.map fun a => (a, (hl.count a : ℚ) / (n : ℚ)))

/-- Modelled from the spec: observed heterozygosity, the arithmetic mean
of the heterozygote frequency map's values. -/
def getHobsForGroups (pmgc : PolymorphismMultiGContainer)
    (locusPosition : Nat) (groups : List Nat) : Except PgError ℚ := do
  let m ← getHeterozygousFrqForGroups pmgc locusPosition groups
  pure ((m.map Prod.snd).sum / (m.length : ℚ))

/-- Modelled from the spec: Nei 1977 expected heterozygosity,
1 minus the sum of squared allele frequencies. -/
def getHexpForGroups (pmgc : PolymorphismMultiGContainer)
    (locusPosition : Nat) (groups : List Nat) : Except PgError ℚ := do
  let m ← getAllelesFrqForGroups pmgc locusPosition groups
  pure (1 - (m.map fun p => p.2 ^ 2).sum)

/-- Modelled from the spec: Nei 1978 unbiased expected heterozygosity,
the expected heterozygosity times 2n/(2n-1) with n the number of
non-missing individuals at the locus. -/
def getHnbForGroups (pmgc : PolymorphismMultiGContainer)
    (locusPosition : Nat) (groups : List Nat) : Except PgError ℚ := do
  let hexp ← getHexpForGroups pmgc locusPosition groups
  let n := nonMissingAt pmgc locusPosition groups
  pure ((2 * n : ℚ) / ((2 * n : ℚ) - 1) * hexp)

/-- Pooled allele frequency of one allele at one locus for a set of
groups, as a total rational function (0 when no gametes). -/
def alleleFrqAt (pmgc : PolymorphismMultiGContainer) (locusPosition : Nat)
    (groups : List Nat) (al : Nat) : ℚ :=
  ((gameteListAt pmgc locusPosition groups).count al : ℚ) /
    ((gameteListAt pmgc locusPosition groups).length : ℚ)

/-- Number of non-missing individuals of one group at one locus. -/
def groupNonMissing (pmgc : PolymorphismMultiGContainer) (locusPosition : Nat)
    (g : Nat) : Nat :=
  nonMissingAt pmgc locusPosition [g]

/-- Heterozygote frequency of one allele in one group at one locus
(count of heterozygous records carrying the allele over non-missing
individuals), as a total rational function. -/
def groupHetFrq (pmgc : PolymorphismMultiGContainer) (locusPosition : Nat)
    (g al : Nat) : ℚ :=
  ((hetListAt pmgc locusPosition [g]).count al : ℚ) /
    (groupNonMissing pmgc locusPosition g : ℚ)

/-- Accumulator of the Nei 1972 distance loop: running sums of x*y, x^2
and y^2 over all loci and alleles. -/
structure Nei72Acc where
  sxy : ℚ
  sx2 : ℚ
  sy2 : ℚ
deriving DecidableEq, Repr

/-- One locus of the Nei 1972 accumulation: per-group frequency maps over
the union of alleles seen in either group. -/
def dnei72Step (pmgc : PolymorphismMultiGContainer) (grp1 grp2 : Nat)
    (acc : Nei72Acc) (l : Nat) : Except PgError Nei72Acc := do
  let mx ← getAllelesFrqForGroups pmgc l [grp1]
  let my ← getAllelesFrqForGroups pmgc l [grp2]
  let ids := (gameteListAt pmgc l [grp1, grp2]).dedup
  pure { sxy := acc.sxy + (ids.map fun a => (mx.lookup a).getD 0 * (my.lookup a).getD 0).sum,
         sx2 := acc.sx2 + (ids.map fun a => (mx.lookup a).getD 0 ^ 2).sum,
         sy2 := acc.sy2 + (ids.map fun a => (my.lookup a).getD 0 ^ 2).sum }

/-- The Nei 1972 accumulation over a list of loci. -/
def dnei72Acc (pmgc : PolymorphismMultiGContainer) (locusPositions : List Nat)
    (grp1 grp2 : Nat) : Except PgError Nei72Acc :=
  locusPositions.foldlM (dnei72Step pmgc grp1 grp2) ⟨0, 0, 0⟩

/-- Modelled from the spec: Nei 1972 distance, -ln of the accumulated
similarity over the geometric mean of the accumulated sums of squares;
zero-division if either sum of squares is 0, domain condition if the
logarithm argument would be nonpositive. -/
noncomputable def getDnei72 (pmgc : PolymorphismMultiGContainer)
    (locusPositions : List Nat) (grp1 grp2 : Nat) : Except PgError ℝ := do
  let t ← dnei72Acc pmgc locusPositions grp1 grp2
  if t.sx2 = 0 ∨ t.sy2 = 0 then throw .zeroDivision
  else if t.sxy ≤ 0 then throw .domainError
  else pure (-Real.log ((t.sxy : ℝ) / Real.sqrt ((t.sx2 : ℝ) * (t.sy2 : ℝ))))

/-- Accumulator of the Nei 1978 distance loop: running sums of x*y, x^2,
y^2 and the per-group total gamete counts. -/
structure Nei78Acc where
  sxy : ℚ
  jx : ℚ
  jy : ℚ
  nx : Nat
  ny : Nat
deriving DecidableEq, Repr

/-- One locus of the Nei 1978 accumulation. -/
def dnei78Step (pmgc : PolymorphismMultiGContainer) (grp1 grp2 : Nat)
    (acc : Nei78Acc) (l : Nat) : Except PgError Nei78Acc := do
  let mx ← getAllelesFrqForGroups pmgc l [grp1]
  let my ← getAllelesFrqForGroups pmgc l [grp2]
  let ids := (gameteListAt pmgc l [grp1, grp2]).dedup
  pure { sxy := acc.sxy + (ids.map fun a => (mx.lookup a).getD 0 * (my.lookup a).getD 0).sum,
         jx := acc.jx + (ids.map fun a => (mx.lookup a).getD 0 ^ 2).sum,
         jy := acc.jy + (ids.map fun a => (my.lookup a).getD 0 ^ 2).sum,
         nx := acc.nx + (gameteListAt pmgc l [grp1]).length,
         ny := acc.ny + (gameteListAt pmgc l [grp2]).length }

/-- The Nei 1978 accumulation over a list of loci. -/
def dnei78Acc (pmgc : PolymorphismMultiGContainer) (locusPositions : List Nat)
    (grp1 grp2 : Nat) : Except PgError Nei78Acc :=
  locusPositions.foldlM (dnei78Step pmgc grp1 grp2) ⟨0, 0, 0, 0, 0⟩

/-- The Nei 1978 unbiased correction (2nJ - 1)/(2n - 1) applied to an
accumulated sum of squared frequencies. -/
def nei78Correction (n : Nat) (j : ℚ) : ℚ :=
  (2 * (n : ℚ) * j - 1) / (2 * (n : ℚ) - 1)

/-- Modelled from the spec: Nei 1978 unbiased distance; the per-group
sums of squares receive the (2nJ-1)/(2n-1) correction before the square
root (the header's doc comment writes the second correction with an
evident typo; the spec's symmetric form is followed). -/
noncomputable def getDnei78 (pmgc : PolymorphismMultiGContainer)
    (locusPositions : List Nat) (grp1 grp2 : Nat) : Except PgError ℝ := do
  let t ← dnei78Acc pmgc locusPositions grp1 grp2
  if t.jx = 0 ∨ t.jy = 0 then throw .zeroDivision
  else
    let cx := nei78Correction t.nx t.jx
    let cy := nei78Correction t.ny t.jy
    if t.sxy ≤ 0 ∨ cx ≤ 0 ∨ cy ≤ 0 then throw .domainError
    else pure (-Real.log ((t.sxy : ℝ) / Real.sqrt ((cx : ℝ) * (cy : ℝ))))

/-- Modelled from the spec: the Weir and Cockerham 1984 per-allele
analysis-of-variance components from the per-group sample sizes, allele
frequencies and heterozygote frequencies (standard closed forms for
a, b, c from the quantities nbar, nc, r, pbar, s2, hbar). -/
def wcVarCompAt (pmgc : PolymorphismMultiGContainer) (locusPosition : Nat)
    (gs : List Nat) (al : Nat) : VarComp :=
  let r : ℚ := (gs.length : ℚ)
  let ns : List ℚ := gs.map fun g => (groupNonMissing pmgc locusPosition g : ℚ)
  let S : ℚ := ns.sum
  let nbar : ℚ := S / r
  let nc : ℚ := (S - (ns.map fun n => n ^ 2).sum / S) / (r - 1)
  let pbar : ℚ :=
    (gs.map fun g =>
      (groupNonMissing pmgc locusPosition g : ℚ) * alleleFrqAt pmgc locusPosition [g] al).sum / S
  let s2 : ℚ :=
    (gs.map fun g =>
      (groupNonMissing pmgc locusPosition g : ℚ) *
        (alleleFrqAt pmgc locusPosition [g] al - pbar) ^ 2).sum / ((r - 1) * nbar)
  let hbar : ℚ :=
    (gs.map fun g =>
      (groupNonMissing pmgc locusPosition g : ℚ) * groupHetFrq pmgc locusPosition g al).sum / S
  { a := (nbar / nc) *
      (s2 - (1 / (nbar - 1)) * (pbar * (1 - pbar) - ((r - 1) / r) * s2 - hbar / 4)),
    b := (nbar / (nbar - 1)) *
      (pbar * (1 - pbar) - ((r - 1) / r) * s2 - ((2 * nbar - 1) / (4 * nbar)) * hbar),
    c := hbar / 2 }

/-- Modelled from the spec: the per-allele variance components at one
locus; fails with a degenerate-sample (zero-division) condition if some
considered group has zero non-missing individuals at the locus or if
fewer than 2 groups are available. -/
def getVarianceComponents (pmgc : PolymorphismMultiGContainer)
    (locusPosition : Nat) (groups : List Nat) :
    Except PgError (List (Nat × VarComp)) := do
  let _ ← checkLocus pmgc locusPosition groups
  let gs := groups.dedup
  if gs.any fun g => groupNonMissing pmgc locusPosition g == 0 then throw .zeroDivision
  else if gs.length < 2 then throw .zeroDivision
  else pure ((gameteListAt pmgc locusPosition groups).dedup.map
    fun al => (al, wcVarCompAt pmgc locusPosition gs al))

/-- The three F statistics of one VarComp record: Fit = 1 - c/(a+b+c),
Fst = a/(a+b+c), Fis = 1 - c/(b+c). -/
def fstatsOfVarComp (v : VarComp) : Fstats :=
  { Fit := 1 - v.c / (v.a + v.b + v.c),
    Fst := v.a / (v.a + v.b + v.c),
    Fis := 1 - v.c / (v.b + v.c) }

/-- Modelled from the spec: the per-allele F statistics derived from the
variance components. -/
def getAllelesFstats (pmgc : PolymorphismMultiGContainer)
    (locusPosition : Nat) (groups : List Nat) :
    Except PgError (List (Nat × Fstats)) :=
  (getVarianceComponents pmgc locusPosition groups).map
    (List.map fun p => (p.1, fstatsOfVarComp p.2))

/-- Modelled from the spec: per-allele Fit map. -/
def getAllelesFit (pmgc : PolymorphismMultiGContainer)
    (locusPosition : Nat) (groups : List Nat) :
    Except PgError (List (Nat × ℚ)) :=
  (getVarianceComponents pmgc locusPosition groups).map
    (List.map fun p => (p.1, (fstatsOfVarComp p.2).Fit))

/-- Modelled from the spec: per-allele Fst (theta) map. -/
def getAllelesFst (pmgc : PolymorphismMultiGContainer)
    (locusPosition : Nat) (groups : List Nat) :
    Except PgError (List (Nat × ℚ)) :=
  (getVarianceComponents pmgc locusPosition groups).map
    (List.map fun p => (p.1, (fstatsOfVarComp p.2).Fst))

/-- Modelled from the spec: per-allele Fis map. -/
def getAllelesFis (pmgc : PolymorphismMultiGContainer)
    (locusPosition : Nat) (groups : List Nat) :
    Except PgError (List (Nat × ℚ)) :=
  (getVarianceComponents pmgc locusPosition groups).map
    (List.map fun p => (p.1, (fstatsOfVarComp p.2).Fis))

/-- Adds the components of one per-allele map into a running (a, b, c)
total. -/
def addVarComps (t : ℚ × ℚ × ℚ) (m : List (Nat × VarComp)) : ℚ × ℚ × ℚ :=
  m.foldl (fun t p => (t.1 + p.2.a, t.2.1 + p.2.b, t.2.2 + p.2.c)) t

/-- The multilocus accumulation of raw variance components: for each
requested locus, the per-allele components are computed and the a, b, c
values of every allele are added into the running totals. -/
def wcTotals (pmgc : PolymorphismMultiGContainer) (locusPositions : List Nat)
    (groups : List Nat) : Except PgError (ℚ × ℚ × ℚ) :=
  locusPositions.foldlM
    (fun t l => (getVarianceComponents pmgc l groups).map (addVarComps t))
    ((0 : ℚ), (0 : ℚ), (0 : ℚ))

/-- Modelled from the spec: multilocus Weir and Cockerham theta — the
summed a over the summed a+b+c, the sums running over all alleles of all
requested loci; zero-division if the denominator is 0. -/
def getWCMultilocusFst (pmgc : PolymorphismMultiGContainer)
    (locusPositions : List Nat) (groups : List Nat) : Except PgError ℚ := do
  let t ← wcTotals pmgc locusPositions groups
  if t.1 + t.2.1 + t.2.2 = 0 then throw .zeroDivision
  else pure (t.1 / (t.1 + t.2.1 + t.2.2))

/-- Modelled from the spec: multilocus Weir and Cockerham Fis —
1 minus the summed c over the summed b+c, the sums running over all
alleles of all requested loci; zero-division if the denominator is 0. -/
def getWCMultilocusFis (pmgc : PolymorphismMultiGContainer)
    (locusPositions : List Nat) (groups : List Nat) : Except PgError ℚ := do
  let t ← wcTotals pmgc locusPositions groups
  if t.2.1 + t.2.2 = 0 then throw .zeroDivision
  else pure (1 - t.2.2 / (t.2.1 + t.2.2))

/-- The replicate loop of the permutation tests: one multilocus statistic
per replicate index, each computed on its shuffled container. -/
def replicateStats (stat : PolymorphismMultiGContainer → Except PgError ℚ)
    (shuffle : Nat → PolymorphismMultiGContainer) :
    List Nat → Except PgError (List ℚ)
  | [] => .ok []
  | i :: is => do
    let x ← stat (shuffle i)
    let xs ← replicateStats stat shuffle is
    pure (x :: xs)

/-- Modelled from the spec: the permutation test for multilocus theta.
The pseudo-random shuffles of individuals between groups are abstracted
as an explicit stream of permuted containers (one per replicate), the
spec's seeded-per-call pseudo-random source being outside a deterministic
embedding.  The observed statistic is computed on the unpermuted data,
each replicate on its shuffled container, and the tail fractions count
replicates strictly above and strictly below the observed value; with 0
replicates both fractions are 0. -/
def getWCMultilocusFstAndPerm (pmgc : PolymorphismMultiGContainer)
    (locusPositions : List Nat) (groups : List Nat) (nbPerm : Nat)
    (shuffle : Nat → PolymorphismMultiGContainer) : Except PgError PermResults := do
  let s ← getWCMultilocusFst pmgc locusPositions groups
  let reps ← replicateStats (fun c => getWCMultilocusFst c locusPositions groups)
    shuffle (List.range nbPerm)
  if nbPerm = 0 then pure ⟨s, 0, 0⟩
  else pure ⟨s, ((reps.countP fun x => decide (s < x)) : ℚ) / (nbPerm : ℚ),
               ((reps.countP fun x => decide (x < s)) : ℚ) / (nbPerm : ℚ)⟩

/-- Modelled from the spec: the permutation test for multilocus Fis, with
the per-group allele permutations likewise abstracted as a stream of
permuted containers. -/
def getWCMultilocusFisAndPerm (pmgc : PolymorphismMultiGContainer)
    (locusPositions : List Nat) (groups : List Nat) (nbPerm : Nat)
    (shuffle : Nat → PolymorphismMultiGContainer) : Except PgError PermResults := do
  let s ← getWCMultilocusFis pmgc locusPositions groups
  let reps ← replicateStats (fun c => getWCMultilocusFis c locusPositions groups)
    shuffle (List.range nbPerm)
  if nbPerm = 0 then pure ⟨s, 0, 0⟩
  else pure ⟨s, ((reps.countP fun x => decide (s < x)) : ℚ) / (nbPerm : ℚ),
               ((reps.countP fun x => decide (x < s)) : ℚ) / (nbPerm : ℚ)⟩

/-- Modelled from the spec: Robertson and Hill multilocus theta, the same
per-allele variance components combined with allele-frequency weights
(the spec leaves the exact frequency weighting open; pooled allele
frequencies are used as the weights here, which is immaterial to the
properties proved below). -/
def getRHMultilocusFst (pmgc : PolymorphismMultiGContainer)
    (locusPositions : List Nat) (groups : List Nat) : Except PgError ℚ := do
  let t ← locusPositions.foldlM
    (fun (t : ℚ × ℚ) l => (getVarianceComponents pmgc l groups).map
      (fun m => (t.1 + (m.map fun p => alleleFrqAt pmgc l groups p.1 * p.2.a).sum,
                 t.2 + (m.map fun p =>
                   alleleFrqAt pmgc l groups p.1 * (p.2.a + p.2.b + p.2.c)).sum)))
    ((0 : ℚ), (0 : ℚ))
  if t.2 = 0 then throw .zeroDivision
  else pure (t.1 / t.2)

/-- The distance-method names recognized by the distance matrix
assembler (spec section 4.6). -/
def recognizedMethods : List String :=
  ["Nei72", "Nei78", "Fst-WC", "Fst-RH", "Nm", "D-Reynolds", "Rousset"]

/-- Modelled from the spec: the scalar distance of one unordered pair of
groups under the selected method. -/
noncomputable def pairDistance (pmgc : PolymorphismMultiGContainer)
    (locusPositions : List Nat) (method : String) (g1 g2 : Nat) :
    Except PgError ℝ :=
  if method = "Nei72" then getDnei72 pmgc locusPositions g1 g2
  else if method = "Nei78" then getDnei78 pmgc locusPositions g1 g2
  else if method = "Fst-WC" then
    (getWCMultilocusFst pmgc locusPositions [g1, g2]).map fun q => (q : ℝ)
  else if method = "Fst-RH" then
    (getRHMultilocusFst pmgc locusPositions [g1, g2]).map fun q => (q : ℝ)
  else if method = "Nm" then do
    let f ← getWCMultilocusFst pmgc locusPositions [g1, g2]
    if f = 0 then throw .zeroDivision
    else pure ((((1 - f) / (4 * f) : ℚ)) : ℝ)
  else if method = "D-Reynolds" then do
    let f ← getWCMultilocusFst pmgc locusPositions [g1, g2]
    if 1 - f ≤ 0 then throw .domainError
    else pure (-Real.log ((1 : ℝ) - (f : ℝ)))
  else if method = "Rousset" then do
    let f ← getWCMultilocusFst pmgc locusPositions [g1, g2]
    if 1 - f = 0 then throw .zeroDivision
    else pure (((f / (1 - f) : ℚ)) : ℝ)
  else throw (.badArgument method)

/-- The position pairs (i, j) with i < j < n, the unordered group pairs
of the matrix assembler. -/
def pairsBelow (n : Nat) : List (Nat × Nat) :=
  (List.range n).flatMap fun j => (List.range j).map fun i => (i, j)

/-- Writes one pair distance into both symmetric cells of the matrix. -/
def setSym (m : Nat → Nat → ℝ) (i j : Nat) (d : ℝ) : Nat → Nat → ℝ :=
  fun u v => if (u = i ∧ v = j) ∨ (u = j ∧ v = i) then d else m u v

/-- Modelled from the spec: the group-by-group distance matrix — one
scalar per unordered pair of group positions, written into both symmetric
cells over an all-zero matrix (so the diagonal stays zero); an
unrecognized method name fails with an invalid-argument condition
carrying the offending string. -/
noncomputable def getDistanceMatrix (pmgc : PolymorphismMultiGContainer)
    (locusPositions : List Nat) (groups : List Nat) (method : String) :
    Except PgError (Nat → Nat → ℝ) := do
  if recognizedMethods.contains method = false then throw (.badArgument method)
  else
    (pairsBelow groups.length).foldlM
      (fun m pr => do
        let d ← pairDistance pmgc locusPositions method
          (groups.getD pr.1 0) (groups.getD pr.2 0)
        pure (setSym m pr.1 pr.2 d))
      (fun _ _ => (0 : ℝ))

/-- Reads one cell of a distance-matrix result (0 when the computation
failed, so that statements about returned matrices stay total). -/
noncomputable def matGet (e : Except PgError (Nat → Nat → ℝ)) (i j : Nat) : ℝ :=
  match e with
  | .ok m => m i j
  | .error _ => 0

/-- The per-locus per-allele variance-component maps of a list of loci,
one map per locus in order. -/
def varCompMaps (pmgc : PolymorphismMultiGContainer) (groups : List Nat) :
    List Nat → Except PgError (List (List (Nat × VarComp)))
  | [] => .ok []
  | l :: ls => do
    let m ← getVarianceComponents pmgc l groups
    let ms ← varCompMaps pmgc groups ls
    pure (m :: ms)

/-- A concrete four-individual container (spec section 8's end-to-end
example): group 1 holds homozygous(1) and heterozygous(1,2), group 2
holds homozygous(2) and heterozygous(1,2), at a single locus. -/
def Cex : PolymorphismMultiGContainer :=
  ⟨[(1, [.homozygous 1]), (1, [.heterozygous 1 2]),
    (2, [.homozygous 2]), (2, [.heterozygous 1 2])]⟩

/-! Basic rewriting lemmas for the Except monad as used by the model. -/

@[simp] theorem except_ok_bind {ε α β : Type} (a : α) (f : α → Except ε β) :
    ((Except.ok a : Except ε α) >>= f) = f a := rfl

@[simp] theorem except_error_bind {ε α β : Type} (e : ε) (f : α → Except ε β) :
    ((Except.error e : Except ε α) >>= f) = .error e := rfl

@[simp] theorem except_map_ok {ε α β : Type} (a : α) (f : α → β) :
    (Except.ok a : Except ε α).map f = .ok (f a) := rfl

@[simp] theorem except_map_error {ε α β : Type} (e : ε) (f : α → β) :
    (Except.error e : Except ε α).map f = .error e := rfl

@[simp] theorem except_throw_eq {ε α : Type} (e : ε) :
    (throw e : Except ε α) = .error e := rfl

@[simp] theorem except_pure_eq {ε α : Type} (a : α) :
    (pure a : Except ε α) = .ok a := rfl

theorem except_bind_eq_ok {ε α β : Type} {e : Except ε α} {f : α → Except ε β}
    {b : β} : (e >>= f) = .ok b ↔ ∃ a, e = .ok a ∧ f a = .ok b := by
  cases e with
  | ok a => simp
  | error err => simp

theorem except_map_eq_ok {ε α β : Type} {e : Except ε α} {f : α → β} {b : β} :
    e.map f = .ok b ↔ ∃ a, e = .ok a ∧ f a = b := by
  cases e with
  | ok a => simp
  | error err => simp

/-- A heterozygous record is a non-missing record. -/
theorem isHeterozygous_imp_isNonMissing (r : MonolocusGenotype)
    (h : isHeterozygous r = true) : isNonMissing r = true := by
  cases r <;> simp [isHeterozygous, isNonMissing] at h ⊢

/-- C10: for every container, locus, and groups on which both counts
succeed, the number of heterozygous (bi-allelic) records at the locus is
at most the number of non-missing records, every heterozygous record
being non-missing. -/
theorem countBiAllelic_le_countNonMissing (pmgc : PolymorphismMultiGContainer)
    (locusPosition : Nat) (groups : List Nat) (n b : Nat)
    (hn : countNonMissingForGroups pmgc locusPosition groups = .ok n)
    (hb : countBiAllelicForGroups pmgc locusPosition groups = .ok b) : b ≤ n := by
  rw [countNonMissingForGroups] at hn
  rw [countBiAllelicForGroups] at hb
  cases hc : checkLocus pmgc locusPosition groups with
  | error e => rw [hc] at hn; simp at hn
  | ok u =>
    rw [hc] at hn hb
    simp at hn hb
    subst hn; subst hb
    exact List.countP_mono_left fun r _ => isHeterozygous_imp_isNonMissing r

/-- Witness for C10 on the concrete container: 2 heterozygous records
against 4 non-missing ones. -/
theorem countBiAllelic_le_countNonMissing_witness :
    countNonMissingForGroups Cex 0 [1, 2] = .ok 4 ∧
    countBiAllelicForGroups Cex 0 [1, 2] = .ok 2 ∧ 2 ≤ 4 :=
  ⟨by decide, by decide,
    countBiAllelic_le_countNonMissing Cex 0 [1, 2] 4 2 (by decide) (by decide)⟩

/-- If some selected genotype is too short, the bounds walk reports an
index-out-of-bounds error carrying the requested locus position. -/
theorem checkLocusAux_error_of (locusPosition : Nat) :
    ∀ L : List MultilocusGenotype, (∃ mg ∈ L, mg.length ≤ locusPosition) →
    ∃ m, checkLocusAux locusPosition L = .error (.indexOutOfBounds locusPosition m) := by
  intro L
  induction L with
  | nil => rintro ⟨mg, hmem, _⟩; cases hmem
  | cons mg rest ih =>
    rintro ⟨mg', hmem, hlen⟩
    by_cases hl : locusPosition < mg.length
    · rcases List.mem_cons.mp hmem with rfl | hmem'
      · omega
      · rcases ih ⟨mg', hmem', hlen⟩ with ⟨m, hm⟩
        exact ⟨m, by simp [checkLocusAux, hl, hm]⟩
    · exact ⟨mg.length - 1, by simp [checkLocusAux, hl]⟩

/-- C8: every single-locus statistic function fails with a
bounds-violation condition naming the offending locus position (and a max
valid index) whenever the locus position reaches the locus count of some
genotype in the selected groups; none of them returns a value there. -/
theorem locus_out_of_bounds_fails (pmgc : PolymorphismMultiGContainer)
    (locusPosition : Nat) (groups : List Nat)
    (h : ∃ mg ∈ selectedGenotypes pmgc groups, mg.length ≤ locusPosition) :
    ∃ m,
      checkLocus pmgc locusPosition groups =
        .error (.indexOutOfBounds locusPosition m) ∧
      getAllelesIdsForGroups pmgc locusPosition groups =
        .error (.indexOutOfBounds locusPosition m) ∧
      countGametesForGroups pmgc locusPosition groups =
        .error (.indexOutOfBounds locusPosition m) ∧
      getAllelesMapForGroups pmgc locusPosition groups =
        .error (.indexOutOfBounds locusPosition m) ∧
      getAllelesFrqForGroups pmgc locusPosition groups =
        .error (.indexOutOfBounds locusPosition m) ∧
      countNonMissingForGroups pmgc locusPosition groups =
        .error (.indexOutOfBounds locusPosition m) ∧
      countBiAllelicForGroups pmgc locusPosition groups =
        .error (.indexOutOfBounds locusPosition m) ∧
      countHeterozygousForGroups pmgc locusPosition groups =
        .error (.indexOutOfBounds locusPosition m) ∧
      getHeterozygousFrqForGroups pmgc locusPosition groups =
        .error (.indexOutOfBounds locusPosition m) ∧
      getHobsForGroups pmgc locusPosition groups =
        .error (.indexOutOfBounds locusPosition m) ∧
      getHexpForGroups pmgc locusPosition groups =
        .error (.indexOutOfBounds locusPosition m) ∧
      getHnbForGroups pmgc locusPosition groups =
        .error (.indexOutOfBounds locusPosition m) ∧
      getVarianceComponents pmgc locusPosition groups =
        .error (.indexOutOfBounds locusPosition m) ∧
      getAllelesFstats pmgc locusPosition groups =
        .error (.indexOutOfBounds locusPosition m) ∧
      getAllelesFit pmgc locusPosition groups =
        .error (.indexOutOfBounds locusPosition m) ∧
      getAllelesFst pmgc locusPosition groups =
        .error (.indexOutOfBounds locusPosition m) ∧
      getAllelesFis pmgc locusPosition groups =
        .error (.indexOutOfBounds locusPosition m) := by
  obtain ⟨m, hm⟩ := checkLocusAux_error_of locusPosition
    (selectedGenotypes pmgc groups) h
  have hcl : checkLocus pmgc locusPosition groups =
      .error (.indexOutOfBounds locusPosition m) := hm
  refine ⟨m, hcl, ?_, ?_, ?_, ?_, ?_, ?_, ?_, ?_, ?_, ?_, ?_, ?_, ?_, ?_, ?_, ?_⟩
  · simp [getAllelesIdsForGroups, hcl]
  · simp [countGametesForGroups, hcl]
  · simp [getAllelesMapForGroups, hcl]
  · simp [getAllelesFrqForGroups, hcl]
  · simp [countNonMissingForGroups, hcl]
  · simp [countBiAllelicForGroups, hcl]
  · simp [countHeterozygousForGroups, hcl]
  · simp [getHeterozygousFrqForGroups, hcl]
  · simp [getHobsForGroups, getHeterozygousFrqForGroups, hcl]
  · simp [getHexpForGroups, getAllelesFrqForGroups, hcl]
  · simp [getHnbForGroups, getHexpForGroups, getAllelesFrqForGroups, hcl]
  · simp [getVarianceComponents, hcl]
  · simp [getAllelesFstats, getVarianceComponents, hcl]
  · simp [getAllelesFit, getVarianceComponents, hcl]
  · simp [getAllelesFst, getVarianceComponents, hcl]
  · simp [getAllelesFis, getVarianceComponents, hcl]

/-- Witness for C8: on the concrete container every genotype has a single
locus, and requesting locus position 1 (the locus count itself) fails. -/
theorem locus_out_of_bounds_fails_witness :
    (∃ mg ∈ selectedGenotypes Cex [1, 2], mg.length ≤ 1) ∧
    ∃ m,
      checkLocus Cex 1 [1, 2] = .error (.indexOutOfBounds 1 m) ∧
      getAllelesIdsForGroups Cex 1 [1, 2] = .error (.indexOutOfBounds 1 m) ∧
      countGametesForGroups Cex 1 [1, 2] = .error (.indexOutOfBounds 1 m) ∧
      getAllelesMapForGroups Cex 1 [1, 2] = .error (.indexOutOfBounds 1 m) ∧
      getAllelesFrqForGroups Cex 1 [1, 2] = .error (.indexOutOfBounds 1 m) ∧
      countNonMissingForGroups Cex 1 [1, 2] = .error (.indexOutOfBounds 1 m) ∧
      countBiAllelicForGroups Cex 1 [1, 2] = .error (.indexOutOfBounds 1 m) ∧
      countHeterozygousForGroups Cex 1 [1, 2] = .error (.indexOutOfBounds 1 m) ∧
      getHeterozygousFrqForGroups Cex 1 [1, 2] = .error (.indexOutOfBounds 1 m) ∧
      getHobsForGroups Cex 1 [1, 2] = .error (.indexOutOfBounds 1 m) ∧
      getHexpForGroups Cex 1 [1, 2] = .error (.indexOutOfBounds 1 m) ∧
      getHnbForGroups Cex 1 [1, 2] = .error (.indexOutOfBounds 1 m) ∧
      getVarianceComponents Cex 1 [1, 2] = .error (.indexOutOfBounds 1 m) ∧
      getAllelesFstats Cex 1 [1, 2] = .error (.indexOutOfBounds 1 m) ∧
      getAllelesFit Cex 1 [1, 2] = .error (.indexOutOfBounds 1 m) ∧
      getAllelesFst Cex 1 [1, 2] = .error (.indexOutOfBounds 1 m) ∧
      getAllelesFis Cex 1 [1, 2] = .error (.indexOutOfBounds 1 m) :=
  ⟨by decide, locus_out_of_bounds_fails Cex 1 [1, 2] (by decide)⟩

/-- The algebraic identity of the three F-statistic ratios of one
VarComp record, valid whenever both denominators are non-zero. -/
theorem fstats_identity (v : VarComp) (h1 : v.a + v.b + v.c ≠ 0)
    (h2 : v.b + v.c ≠ 0) :
    (fstatsOfVarComp v).Fit =
      (fstatsOfVarComp v).Fst +
        (fstatsOfVarComp v).Fis * (1 - (fstatsOfVarComp v).Fst) := by
  simp only [fstatsOfVarComp]
  field_simp
  ring

/-- C2: every allele of the Fstats map carries exactly the three ratios
of its variance-component record — Fit = 1 - c/(a+b+c), Fst = a/(a+b+c),
Fis = 1 - c/(b+c) — and these satisfy Fit = Fst + Fis(1-Fst) whenever the
denominators are non-zero; the per-allele Fit/Fst/Fis maps are the
componentwise projections of the same map. -/
theorem allelesFstats_ratios (pmgc : PolymorphismMultiGContainer)
    (locusPosition : Nat) (groups : List Nat) (m : List (Nat × Fstats))
    (hm : getAllelesFstats pmgc locusPosition groups = .ok m) :
    getAllelesFit pmgc locusPosition groups = .ok (m.map fun p => (p.1, p.2.Fit)) ∧
    getAllelesFst pmgc locusPosition groups = .ok (m.map fun p => (p.1, p.2.Fst)) ∧
    getAllelesFis pmgc locusPosition groups = .ok (m.map fun p => (p.1, p.2.Fis)) ∧
    ∀ al fs, (al, fs) ∈ m →
      ∃ vcm vc, getVarianceComponents pmgc locusPosition groups = .ok vcm ∧
        (al, vc) ∈ vcm ∧
        fs.Fit = 1 - vc.c / (vc.a + vc.b + vc.c) ∧
        fs.Fst = vc.a / (vc.a + vc.b + vc.c) ∧
        fs.Fis = 1 - vc.c / (vc.b + vc.c) ∧
        (vc.a + vc.b + vc.c ≠ 0 → vc.b + vc.c ≠ 0 →
          fs.Fit = fs.Fst + fs.Fis * (1 - fs.Fst)) := by
  rw [getAllelesFstats, except_map_eq_ok] at hm
  obtain ⟨vcm, hvcm, hmap⟩ := hm
  subst hmap
  refine ⟨?_, ?_, ?_, ?_⟩
  · rw [getAllelesFit, hvcm, except_map_ok, List.map_map]; rfl
  · rw [getAllelesFst, hvcm, except_map_ok, List.map_map]; rfl
  · rw [getAllelesFis, hvcm, except_map_ok, List.map_map]; rfl
  · intro al fs hmem
    obtain ⟨p, hp, hpe⟩ := List.mem_map.mp hmem
    obtain ⟨h1, h2⟩ := Prod.mk.injEq .. ▸ hpe
    refine ⟨vcm, p.2, hvcm, ?_, ?_, ?_, ?_, ?_⟩
    · rw [← h1]; exact hp
    · rw [← h2]; rfl
    · rw [← h2]; rfl
    · rw [← h2]; rfl
    · intro d1 d2
      rw [← h2]
      exact fstats_identity p.2 d1 d2

/-- Witness for C2 at the concrete container: allele 1 has variance
components (1/16, 0, 1/4) and statistics (1/5, 1/5, 0), which satisfy the
identity. -/
theorem allelesFstats_ratios_witness :
    ∃ vcm vc, getVarianceComponents Cex 0 [1, 2] = .ok vcm ∧
      ((1 : Nat), vc) ∈ vcm ∧
      (⟨1/5, 1/5, 0⟩ : Fstats).Fit = 1 - vc.c / (vc.a + vc.b + vc.c) ∧
      (⟨1/5, 1/5, 0⟩ : Fstats).Fst = vc.a / (vc.a + vc.b + vc.c) ∧
      (⟨1/5, 1/5, 0⟩ : Fstats).Fis = 1 - vc.c / (vc.b + vc.c) ∧
      (vc.a + vc.b + vc.c ≠ 0 → vc.b + vc.c ≠ 0 →
        (⟨1/5, 1/5, 0⟩ : Fstats).Fit =
          (⟨1/5, 1/5, 0⟩ : Fstats).Fst +
            (⟨1/5, 1/5, 0⟩ : Fstats).Fis * (1 - (⟨1/5, 1/5, 0⟩ : Fstats).Fst)) :=
  (allelesFstats_ratios Cex 0 [1, 2]
      [(1, ⟨1/5, 1/5, 0⟩), (2, ⟨1/5, 1/5, 0⟩)] (by decide!)).2.2.2
    1 ⟨1/5, 1/5, 0⟩ (by decide!)

/-- Success of the frequency map determines the bounds check, a non-zero
gamete count, and the exact shape of the returned map. -/
theorem getAllelesFrq_ok_elim {pmgc : PolymorphismMultiGContainer}
    {locusPosition : Nat} {groups : List Nat} {m : List (Nat × ℚ)}
    (h : getAllelesFrqForGroups pmgc locusPosition groups = .ok m) :
    checkLocus pmgc locusPosition groups = .ok () ∧
    (gameteListAt pmgc locusPosition groups).length ≠ 0 ∧
    m = (gameteListAt pmgc locusPosition groups).dedup.map fun a =>
      (a, ((gameteListAt pmgc locusPosition groups).count a : ℚ) /
        ((gameteListAt pmgc locusPosition groups).length : ℚ)) := by
  rw [getAllelesFrqForGroups] at h
  cases hc : checkLocus pmgc locusPosition groups with
  | error e => rw [hc] at h; simp at h
  | ok u =>
    cases u
    rw [hc] at h
    simp only [except_ok_bind] at h
    by_cases h0 : (gameteListAt pmgc locusPosition groups).length = 0
    · simp [h0] at h
    · simp only [h0, if_false, except_pure_eq, Except.ok.injEq] at h
      exact ⟨rfl, h0, h.symm⟩

/-- The dedup-indexed count sums cast to the list's length in ℚ. -/
theorem count_dedup_cast_sum (gl : List Nat) :
    (gl.dedup.map fun a => (gl.count a : ℚ)).sum = (gl.length : ℚ) := by
  rw [show (fun a => (gl.count a : ℚ)) =
      (fun n : Nat => (n : ℚ)) ∘ (fun a => gl.count a) from rfl,
    ← List.map_map, ← Nat.cast_list_sum, List.sum_map_count_dedup_eq_length]

/-- The allele frequencies over the deduplicated allele ids sum to 1 when
the gamete count is non-zero. -/
theorem freq_sum_one (gl : List Nat) (h : (gl.length : ℚ) ≠ 0) :
    (gl.dedup.map fun a => (gl.count a : ℚ) / (gl.length : ℚ)).sum = 1 := by
  have : (fun a => (gl.count a : ℚ) / (gl.length : ℚ)) =
      fun a => (gl.count a : ℚ) * ((gl.length : ℚ))⁻¹ := by
    funext a; rw [div_eq_mul_inv]
  rw [this, List.sum_map_mul_right, count_dedup_cast_sum, mul_inv_cancel₀ h]

/-- For a list of non-negative rationals the sum of squares is at most
the square of the sum. -/
theorem sum_sq_le_sq_sum (l : List ℚ) (h : ∀ x ∈ l, 0 ≤ x) :
    (l.map fun x => x ^ 2).sum ≤ l.sum ^ 2 := by
  induction l with
  | nil => simp
  | cons a t ih =>
    have ha : 0 ≤ a := h a (List.mem_cons_self a t)
    have ht : ∀ x ∈ t, 0 ≤ x := fun x hx => h x (List.mem_cons_of_mem a hx)
    have hts : 0 ≤ t.sum := List.sum_nonneg ht
    have := ih ht
    simp only [List.map_cons, List.sum_cons]
    nlinarith

/-- C4: the unbiased expected heterozygosity is the expected
heterozygosity times 2n/(2n-1) with n the number of non-missing
individuals at the locus, and in particular is at least the expected
heterozygosity once n is at least 1. -/
theorem hnb_is_corrected_hexp (pmgc : PolymorphismMultiGContainer)
    (locusPosition : Nat) (groups : List Nat) (v : ℚ)
    (hv : getHnbForGroups pmgc locusPosition groups = .ok v) :
    ∃ h n, getHexpForGroups pmgc locusPosition groups = .ok h ∧
      countNonMissingForGroups pmgc locusPosition groups = .ok n ∧
      v = (2 * n : ℚ) / ((2 * n : ℚ) - 1) * h ∧ (1 ≤ n → h ≤ v) := by
  rw [getHnbForGroups, except_bind_eq_ok] at hv
  obtain ⟨a, hh, hval⟩ := hv
  simp only [except_pure_eq, Except.ok.injEq] at hval
  rw [getHexpForGroups, except_bind_eq_ok] at hh
  obtain ⟨fm, hfm, ha⟩ := hh
  simp only [except_pure_eq, Except.ok.injEq] at ha
  obtain ⟨hcheck, hlen, hshape⟩ := getAllelesFrq_ok_elim hfm
  refine ⟨a, nonMissingAt pmgc locusPosition groups, ?_, ?_, hval.symm, ?_⟩
  · rw [getHexpForGroups, hfm, except_ok_bind, except_pure_eq, ha]
  · rw [countNonMissingForGroups, hcheck, except_ok_bind, except_pure_eq]
  · intro hn
    have hvalnn : ∀ x ∈ (gameteListAt pmgc locusPosition groups).dedup.map
        (fun al => (((gameteListAt pmgc locusPosition groups).count al : ℚ) /
          ((gameteListAt pmgc locusPosition groups).length : ℚ))), 0 ≤ x := by
      intro x hx
      obtain ⟨al, _, rfl⟩ := List.mem_map.mp hx
      positivity
    have hsum1 : ((gameteListAt pmgc locusPosition groups).dedup.map
        fun al => (((gameteListAt pmgc locusPosition groups).count al : ℚ) /
          ((gameteListAt pmgc locusPosition groups).length : ℚ))).sum = 1 :=
      freq_sum_one _ (Nat.cast_ne_zero.mpr hlen)
    have hsq := sum_sq_le_sq_sum _ hvalnn
    rw [hsum1] at hsq
    have hfmsq : (fm.map fun p => p.2 ^ 2).sum =
        (((gameteListAt pmgc locusPosition groups).dedup.map
          fun al => (((gameteListAt pmgc locusPosition groups).count al : ℚ) /
            ((gameteListAt pmgc locusPosition groups).length : ℚ))).map
              fun x => x ^ 2).sum := by
      rw [hshape, List.map_map, List.map_map]; rfl
    have ha0 : 0 ≤ a := by
      rw [← ha, hfmsq]
      have : (1 : ℚ) ^ 2 = 1 := one_pow 2
      linarith [hsq]
    have hn' : (1 : ℚ) ≤ (nonMissingAt pmgc locusPosition groups : ℚ) := by
      exact_mod_cast hn
    have hpos : (0 : ℚ)
        < 2 * (nonMissingAt pmgc locusPosition groups : ℚ) - 1 := by linarith
    have hcge : (1 : ℚ) ≤ (2 * (nonMissingAt pmgc locusPosition groups : ℚ)) /
        (2 * (nonMissingAt pmgc locusPosition groups : ℚ) - 1) := by
      rw [le_div_iff₀ hpos]; linarith
    calc a = a * 1 := by ring
    _ ≤ a * ((2 * (nonMissingAt pmgc locusPosition groups : ℚ)) /
        (2 * (nonMissingAt pmgc locusPosition groups : ℚ) - 1)) :=
      mul_le_mul_of_nonneg_left hcge ha0
    _ = (2 * (nonMissingAt pmgc locusPosition groups : ℚ)) /
        (2 * (nonMissingAt pmgc locusPosition groups : ℚ) - 1) * a := by ring
    _ = v := hval

/-- Witness for C4 on the concrete container: the unbiased expected
heterozygosity 4/7 against the expected heterozygosity 1/2, with n = 4
non-missing individuals and correction factor 8/7. -/
theorem hnb_is_corrected_hexp_witness :
    ∃ h n, getHexpForGroups Cex 0 [1, 2] = .ok h ∧
      countNonMissingForGroups Cex 0 [1, 2] = .ok n ∧
      (4/7 : ℚ) = (2 * n : ℚ) / ((2 * n : ℚ) - 1) * h ∧ (1 ≤ n → h ≤ 4/7) :=
  hnb_is_corrected_hexp Cex 0 [1, 2] (4/7) (by decide!)

/-- C7: once the bounds check passes, the allele frequency map is the
allele count map with every count divided by the gamete count, and its
values sum to exactly 1 when the gamete count is non-zero (so a fortiori
within 1e-9); a zero gamete count fails with a zero-division condition
instead. -/
theorem allelesFrq_is_normalized_counts (pmgc : PolymorphismMultiGContainer)
    (locusPosition : Nat) (groups : List Nat)
    (hc : checkLocus pmgc locusPosition groups = .ok ()) :
    ∃ G cm, countGametesForGroups pmgc locusPosition groups = .ok G ∧
      getAllelesMapForGroups pmgc locusPosition groups = .ok cm ∧
      (G = 0 →
        getAllelesFrqForGroups pmgc locusPosition groups = .error .zeroDivision) ∧
      (G ≠ 0 → ∃ fm,
        getAllelesFrqForGroups pmgc locusPosition groups = .ok fm ∧
        fm = cm.map (fun p => (p.1, (p.2 : ℚ) / (G : ℚ))) ∧
        (fm.map Prod.snd).sum = 1) := by
  refine ⟨(gameteListAt pmgc locusPosition groups).length,
    (gameteListAt pmgc locusPosition groups).dedup.map
      (fun a => (a, (gameteListAt pmgc locusPosition groups).count a)),
    ?_, ?_, ?_, ?_⟩
  · rw [countGametesForGroups, hc, except_ok_bind, except_pure_eq]
  · rw [getAllelesMapForGroups, hc, except_ok_bind, except_pure_eq]
  · intro hG
    rw [getAllelesFrqForGroups, hc, except_ok_bind, if_pos hG, except_throw_eq]
  · intro hG
    refine ⟨(gameteListAt pmgc locusPosition groups).dedup.map
      (fun a => (a, ((gameteListAt pmgc locusPosition groups).count a : ℚ) /
        ((gameteListAt pmgc locusPosition groups).length : ℚ))), ?_, ?_, ?_⟩
    · rw [getAllelesFrqForGroups, hc, except_ok_bind, if_neg hG, except_pure_eq]
    · rw [List.map_map]; rfl
    · rw [List.map_map]
      exact freq_sum_one _ (Nat.cast_ne_zero.mpr hG)

/-- Witness for C7 on the concrete container: 8 gametes, counts 4 and 4,
frequencies one half each summing to 1. -/
theorem allelesFrq_is_normalized_counts_witness :
    ∃ G cm, countGametesForGroups Cex 0 [1, 2] = .ok G ∧
      getAllelesMapForGroups Cex 0 [1, 2] = .ok cm ∧
      (G = 0 → getAllelesFrqForGroups Cex 0 [1, 2] = .error .zeroDivision) ∧
      (G ≠ 0 → ∃ fm, getAllelesFrqForGroups Cex 0 [1, 2] = .ok fm ∧
        fm = cm.map (fun p => (p.1, (p.2 : ℚ) / (G : ℚ))) ∧
        (fm.map Prod.snd).sum = 1) :=
  allelesFrq_is_normalized_counts Cex 0 [1, 2] (by decide!)

/-- A single considered group always defeats the variance-component
computation: whatever the bounds check says, the result is an error. -/
theorem getVarianceComponents_single_group (pmgc : PolymorphismMultiGContainer)
    (locusPosition g : Nat) :
    ∃ e, getVarianceComponents pmgc locusPosition [g] = .error e := by
  rw [getVarianceComponents]
  cases hc : checkLocus pmgc locusPosition [g] with
  | error e => exact ⟨e, except_error_bind e _⟩
  | ok u =>
    cases u
    rw [except_ok_bind]
    cases hz : ([g].dedup.any fun x => groupNonMissing pmgc locusPosition x == 0) with
    | true => exact ⟨.zeroDivision, by simp [hz]⟩
    | false => exact ⟨.zeroDivision, by simp [hz]⟩

/-- C6: the variance components fail with a zero-division (degenerate
sample) condition when, the bounds check passing, fewer than 2 of the
considered groups have non-missing data at the locus or some considered
group has zero non-missing individuals there; and the multilocus theta of
a single group always fails, never returning a value. -/
theorem varianceComponents_degenerate_fails :
    (∀ (pmgc : PolymorphismMultiGContainer) (locusPosition : Nat)
      (groups : List Nat),
      checkLocus pmgc locusPosition groups = .ok () →
      ((groups.dedup.countP fun x =>
          decide (0 < groupNonMissing pmgc locusPosition x)) < 2 ∨
        ∃ x ∈ groups.dedup, groupNonMissing pmgc locusPosition x = 0) →
      getVarianceComponents pmgc locusPosition groups = .error .zeroDivision) ∧
    (∀ (pmgc : PolymorphismMultiGContainer) (locusPositions : List Nat) (g : Nat),
      ∃ e, getWCMultilocusFst pmgc locusPositions [g] = .error e) := by
  constructor
  · intro pmgc locusPosition groups hc hcond
    rw [getVarianceComponents, hc, except_ok_bind]
    cases hz : (groups.dedup.any fun x =>
        groupNonMissing pmgc locusPosition x == 0) with
    | true => simp [hz]
    | false =>
      have hall : ∀ x ∈ groups.dedup, groupNonMissing pmgc locusPosition x ≠ 0 := by
        intro x hx
        have := List.any_eq_false.mp hz x hx
        simpa using this
      rcases hcond with hlt | ⟨x, hx, hx0⟩
      · have hcountP : (groups.dedup.countP fun x =>
            decide (0 < groupNonMissing pmgc locusPosition x)) =
            groups.dedup.length :=
          List.countP_eq_length.mpr fun x hx => by
            simpa using Nat.pos_of_ne_zero (hall x hx)
        rw [hcountP] at hlt
        simp [hz, hlt]
      · exact absurd hx0 (hall x hx)
  · intro pmgc locusPositions g
    cases locusPositions with
    | nil =>
      refine ⟨.zeroDivision, ?_⟩
      rw [getWCMultilocusFst]
      have h0 : wcTotals pmgc [] [g] = .ok ((0 : ℚ), (0 : ℚ), (0 : ℚ)) := rfl
      rw [h0, except_ok_bind]
      simp
    | cons l ls =>
      obtain ⟨e, he⟩ := getVarianceComponents_single_group pmgc l g
      refine ⟨e, ?_⟩
      rw [getWCMultilocusFst, wcTotals, List.foldlM_cons, he,
        except_map_error, except_error_bind, except_error_bind]

/-- Witness for C6: one considered group with data still fails the
variance components on the concrete container, and the single-group
multilocus theta fails even for a group id absent from the container. -/
theorem varianceComponents_degenerate_fails_witness :
    getVarianceComponents Cex 0 [1] = .error .zeroDivision ∧
    ∃ e, getWCMultilocusFst Cex [0] [5] = .error e :=
  ⟨varianceComponents_degenerate_fails.1 Cex 0 [1] (by decide!) (by decide!),
    varianceComponents_degenerate_fails.2 Cex [0] 5⟩

/-- C5: with 0 permutations both tail fractions are 0 and the statistic
field is exactly the unpermuted multilocus value (for theta and for Fis);
with a positive number of permutations the tail fractions are the counts
of replicates strictly above respectively strictly below the observed
statistic, divided by the number of permutations. -/
theorem permResults_tail_fractions :
    (∀ (pmgc : PolymorphismMultiGContainer) (locusPositions groups : List Nat)
      (shuffle : Nat → PolymorphismMultiGContainer) (s : ℚ),
      getWCMultilocusFst pmgc locusPositions groups = .ok s →
      getWCMultilocusFstAndPerm pmgc locusPositions groups 0 shuffle =
        .ok ⟨s, 0, 0⟩) ∧
    (∀ (pmgc : PolymorphismMultiGContainer) (locusPositions groups : List Nat)
      (shuffle : Nat → PolymorphismMultiGContainer) (s : ℚ),
      getWCMultilocusFis pmgc locusPositions groups = .ok s →
      getWCMultilocusFisAndPerm pmgc locusPositions groups 0 shuffle =
        .ok ⟨s, 0, 0⟩) ∧
    (∀ (pmgc : PolymorphismMultiGContainer) (locusPositions groups : List Nat)
      (shuffle : Nat → PolymorphismMultiGContainer) (nbPerm : Nat)
      (res : PermResults), 0 < nbPerm →
      getWCMultilocusFstAndPerm pmgc locusPositions groups nbPerm shuffle =
        .ok res →
      ∃ reps, getWCMultilocusFst pmgc locusPositions groups = .ok res.statistic ∧
        replicateStats (fun c => getWCMultilocusFst c locusPositions groups)
          shuffle (List.range nbPerm) = .ok reps ∧
        res.percentSup =
          ((reps.countP fun x => decide (res.statistic < x)) : ℚ) / (nbPerm : ℚ) ∧
        res.percentInf =
          ((reps.countP fun x => decide (x < res.statistic)) : ℚ) / (nbPerm : ℚ)) ∧
    (∀ (pmgc : PolymorphismMultiGContainer) (locusPositions groups : List Nat)
      (shuffle : Nat → PolymorphismMultiGContainer) (nbPerm : Nat)
      (res : PermResults), 0 < nbPerm →
      getWCMultilocusFisAndPerm pmgc locusPositions groups nbPerm shuffle =
        .ok res →
      ∃ reps, getWCMultilocusFis pmgc locusPositions groups = .ok res.statistic ∧
        replicateStats (fun c => getWCMultilocusFis c locusPositions groups)
          shuffle (List.range nbPerm) = .ok reps ∧
        res.percentSup =
          ((reps.countP fun x => decide (res.statistic < x)) : ℚ) / (nbPerm : ℚ) ∧
        res.percentInf =
          ((reps.countP fun x => decide (x < res.statistic)) : ℚ) / (nbPerm : ℚ)) := by
  refine ⟨?_, ?_, ?_, ?_⟩
  · intro pmgc locusPositions groups shuffle s hs
    rw [getWCMultilocusFstAndPerm, hs, except_ok_bind]
    rfl
  · intro pmgc locusPositions groups shuffle s hs
    rw [getWCMultilocusFisAndPerm, hs, except_ok_bind]
    rfl
  · intro pmgc locusPositions groups shuffle nbPerm res hn hres
    rw [getWCMultilocusFstAndPerm, except_bind_eq_ok] at hres
    obtain ⟨s, hs, hres2⟩ := hres
    rw [except_bind_eq_ok] at hres2
    obtain ⟨reps, hreps, hres3⟩ := hres2
    rw [if_neg hn.ne', except_pure_eq, Except.ok.injEq] at hres3
    refine ⟨reps, ?_, ?_, ?_, ?_⟩
    · rw [hs, ← hres3]
    · rw [hreps]
    · rw [← hres3]
    · rw [← hres3]
  · intro pmgc locusPositions groups shuffle nbPerm res hn hres
    rw [getWCMultilocusFisAndPerm, except_bind_eq_ok] at hres
    obtain ⟨s, hs, hres2⟩ := hres
    rw [except_bind_eq_ok] at hres2
    obtain ⟨reps, hreps, hres3⟩ := hres2
    rw [if_neg hn.ne', except_pure_eq, Except.ok.injEq] at hres3
    refine ⟨reps, ?_, ?_, ?_, ?_⟩
    · rw [hs, ← hres3]
    · rw [hreps]
    · rw [← hres3]
    · rw [← hres3]

/-- Witness for C5 on the concrete container: theta 1/5 and Fis 0 with 0
permutations and zero tail fractions. -/
theorem permResults_tail_fractions_witness :
    getWCMultilocusFstAndPerm Cex [0] [1, 2] 0 (fun _ => Cex) =
      .ok ⟨1/5, 0, 0⟩ ∧
    getWCMultilocusFisAndPerm Cex [0] [1, 2] 0 (fun _ => Cex) =
      .ok ⟨0, 0, 0⟩ :=
  ⟨permResults_tail_fractions.1 Cex [0] [1, 2] (fun _ => Cex) (1/5) (by decide!),
    permResults_tail_fractions.2.1 Cex [0] [1, 2] (fun _ => Cex) 0 (by decide!)⟩

/-- Adding one per-allele map into the running totals adds the sums of
its a, b and c columns. -/
theorem addVarComps_sums (t : ℚ × ℚ × ℚ) (m : List (Nat × VarComp)) :
    addVarComps t m =
      (t.1 + (m.map fun p => p.2.a).sum,
       t.2.1 + (m.map fun p => p.2.b).sum,
       t.2.2 + (m.map fun p => p.2.c).sum) := by
  induction m generalizing t with
  | nil => simp [addVarComps]
  | cons p ps ih =>
    have hstep : addVarComps t (p :: ps) =
        addVarComps (t.1 + p.2.a, t.2.1 + p.2.b, t.2.2 + p.2.c) ps := rfl
    rw [hstep, ih]
    simp only [List.map_cons, List.sum_cons, Prod.mk.injEq]
    refine ⟨by ring, by ring, by ring⟩

/-- The multilocus accumulation is the fold of the per-locus
variance-component maps. -/
theorem wcTotals_eq_fold (pmgc : PolymorphismMultiGContainer)
    (groups : List Nat) : ∀ (locusPositions : List Nat) (init : ℚ × ℚ × ℚ),
    locusPositions.foldlM
      (fun t l => (getVarianceComponents pmgc l groups).map (addVarComps t)) init
    = (varCompMaps pmgc groups locusPositions).map
        (fun ms => ms.foldl addVarComps init) := by
  intro locusPositions
  induction locusPositions with
  | nil => intro init; rfl
  | cons l ls ih =>
    intro init
    rw [List.foldlM_cons]
    cases hv : getVarianceComponents pmgc l groups with
    | error e => simp [varCompMaps, hv]
    | ok m =>
      simp only [hv, except_map_ok, except_ok_bind]
      rw [ih (addVarComps init m)]
      cases hr : varCompMaps pmgc groups ls with
      | error e => simp [varCompMaps, hv, hr]
      | ok ms => simp [varCompMaps, hv, hr, List.foldl_cons]

/-- Folding the per-locus maps into the zero totals yields the double
sums of the components over all alleles of all loci. -/
theorem foldl_addVarComps_sums (ms : List (List (Nat × VarComp))) :
    ∀ init : ℚ × ℚ × ℚ,
    ms.foldl addVarComps init =
      (init.1 + (ms.map fun m => (m.map fun p => p.2.a).sum).sum,
       init.2.1 + (ms.map fun m => (m.map fun p => p.2.b).sum).sum,
       init.2.2 + (ms.map fun m => (m.map fun p => p.2.c).sum).sum) := by
  induction ms with
  | nil => intro init; simp
  | cons m ms ih =>
    intro init
    rw [List.foldl_cons, ih, addVarComps_sums]
    simp only [List.map_cons, List.sum_cons, Prod.mk.injEq]
    refine ⟨by ring, by ring, by ring⟩

/-- C1: a successful multilocus theta (and Fis) is the single ratio of
the raw variance components summed over all alleles of all requested
loci — summed a over summed a+b+c for theta, 1 minus summed c over summed
b+c for Fis — not an average of per-locus or per-allele ratios. -/
theorem multilocus_ratio_of_summed_components
    (pmgc : PolymorphismMultiGContainer) (locusPositions groups : List Nat) :
    (∀ q, getWCMultilocusFst pmgc locusPositions groups = .ok q →
      ∃ ms, varCompMaps pmgc groups locusPositions = .ok ms ∧
        (ms.map fun m => (m.map fun p => p.2.a).sum).sum +
          (ms.map fun m => (m.map fun p => p.2.b).sum).sum +
          (ms.map fun m => (m.map fun p => p.2.c).sum).sum ≠ 0 ∧
        q = (ms.map fun m => (m.map fun p => p.2.a).sum).sum /
          ((ms.map fun m => (m.map fun p => p.2.a).sum).sum +
            (ms.map fun m => (m.map fun p => p.2.b).sum).sum +
            (ms.map fun m => (m.map fun p => p.2.c).sum).sum)) ∧
    (∀ q, getWCMultilocusFis pmgc locusPositions groups = .ok q →
      ∃ ms, varCompMaps pmgc groups locusPositions = .ok ms ∧
        (ms.map fun m => (m.map fun p => p.2.b).sum).sum +
          (ms.map fun m => (m.map fun p => p.2.c).sum).sum ≠ 0 ∧
        q = 1 - (ms.map fun m => (m.map fun p => p.2.c).sum).sum /
          ((ms.map fun m => (m.map fun p => p.2.b).sum).sum +
            (ms.map fun m => (m.map fun p => p.2.c).sum).sum)) := by
  constructor
  · intro q hq
    rw [getWCMultilocusFst, wcTotals, wcTotals_eq_fold, except_bind_eq_ok] at hq
    obtain ⟨t, ht, hq2⟩ := hq
    rw [except_map_eq_ok] at ht
    obtain ⟨ms, hms, hfold⟩ := ht
    rw [foldl_addVarComps_sums] at hfold
    simp only [zero_add] at hfold
    subst hfold
    by_cases hz : (ms.map fun m => (m.map fun p => p.2.a).sum).sum +
        (ms.map fun m => (m.map fun p => p.2.b).sum).sum +
        (ms.map fun m => (m.map fun p => p.2.c).sum).sum = 0
    · rw [if_pos hz] at hq2
      exact absurd hq2 (by simp)
    · rw [if_neg hz, except_pure_eq, Except.ok.injEq] at hq2
      exact ⟨ms, hms, hz, hq2.symm⟩
  · intro q hq
    rw [getWCMultilocusFis, wcTotals, wcTotals_eq_fold, except_bind_eq_ok] at hq
    obtain ⟨t, ht, hq2⟩ := hq
    rw [except_map_eq_ok] at ht
    obtain ⟨ms, hms, hfold⟩ := ht
    rw [foldl_addVarComps_sums] at hfold
    simp only [zero_add] at hfold
    subst hfold
    by_cases hz : (ms.map fun m => (m.map fun p => p.2.b).sum).sum +
        (ms.map fun m => (m.map fun p => p.2.c).sum).sum = 0
    · rw [if_pos hz] at hq2
      exact absurd hq2 (by simp)
    · rw [if_neg hz, except_pure_eq, Except.ok.injEq] at hq2
      exact ⟨ms, hms, hz, hq2.symm⟩

/-- Witness for C1 on the concrete container: theta 1/5 arises as the
summed a = 1/8 over summed a+b+c = 5/8. -/
theorem multilocus_ratio_of_summed_components_witness :
    ∃ ms, varCompMaps Cex [1, 2] [0] = .ok ms ∧
      (ms.map fun m => (m.map fun p => p.2.a).sum).sum +
        (ms.map fun m => (m.map fun p => p.2.b).sum).sum +
        (ms.map fun m => (m.map fun p => p.2.c).sum).sum ≠ 0 ∧
      (1/5 : ℚ) = (ms.map fun m => (m.map fun p => p.2.a).sum).sum /
        ((ms.map fun m => (m.map fun p => p.2.a).sum).sum +
          (ms.map fun m => (m.map fun p => p.2.b).sum).sum +
          (ms.map fun m => (m.map fun p => p.2.c).sum).sum) :=
  (multilocus_ratio_of_summed_components Cex [0] [1, 2]).1 (1/5) (by decide!)

/-- Looking up a key in a key-indexed map built over a list gives the
value function at members and nothing elsewhere. -/
theorem lookup_map_self (l : List Nat) (f : Nat → ℚ) (a : Nat) :
    (((l.map fun x => (x, f x)).lookup a).getD 0) =
      if a ∈ l then f a else 0 := by
  induction l with
  | nil => simp
  | cons x xs ih =>
    by_cases hax : a = x
    · simp [hax, List.lookup]
    · have hbeq : (a == x) = false := beq_eq_false_iff_ne.mpr hax
      simp [List.lookup, hbeq, ih, hax]

/-- A successful frequency map looks up to the total allele frequency
function, with 0 for alleles absent at the locus. -/
theorem frq_lookup {pmgc : PolymorphismMultiGContainer} {locusPosition : Nat}
    {groups : List Nat} {m : List (Nat × ℚ)}
    (h : getAllelesFrqForGroups pmgc locusPosition groups = .ok m) (a : Nat) :
    ((m.lookup a).getD 0) = alleleFrqAt pmgc locusPosition groups a := by
  obtain ⟨hc, hlen, hshape⟩ := getAllelesFrq_ok_elim h
  subst hshape
  rw [lookup_map_self]
  by_cases ha : a ∈ (gameteListAt pmgc locusPosition groups).dedup
  · rw [if_pos ha]; rfl
  · rw [if_neg ha, alleleFrqAt]
    have hz : (gameteListAt pmgc locusPosition groups).count a = 0 :=
      List.count_eq_zero.mpr fun hmem => ha (List.mem_dedup.mpr hmem)
    rw [hz]
    simp

/-- The Nei 1978 accumulation computes, field by field, the sums over all
loci of the per-locus allele-frequency cross products, squared
frequencies and gamete counts. -/
theorem dnei78Acc_fields (pmgc : PolymorphismMultiGContainer) (g1 g2 : Nat) :
    ∀ (locusPositions : List Nat) (acc t : Nei78Acc),
    locusPositions.foldlM (dnei78Step pmgc g1 g2) acc = .ok t →
    t.sxy = acc.sxy + (locusPositions.map fun l =>
      (((gameteListAt pmgc l [g1, g2]).dedup).map fun a =>
        alleleFrqAt pmgc l [g1] a * alleleFrqAt pmgc l [g2] a).sum).sum ∧
    t.jx = acc.jx + (locusPositions.map fun l =>
      (((gameteListAt pmgc l [g1, g2]).dedup).map fun a =>
        alleleFrqAt pmgc l [g1] a ^ 2).sum).sum ∧
    t.jy = acc.jy + (locusPositions.map fun l =>
      (((gameteListAt pmgc l [g1, g2]).dedup).map fun a =>
        alleleFrqAt pmgc l [g2] a ^ 2).sum).sum ∧
    t.nx = acc.nx + (locusPositions.map fun l =>
      (gameteListAt pmgc l [g1]).length).sum ∧
    t.ny = acc.ny + (locusPositions.map fun l =>
      (gameteListAt pmgc l [g2]).length).sum := by
  intro locusPositions
  induction locusPositions with
  | nil =>
    intro acc t h
    simp only [List.foldlM_nil, except_pure_eq, Except.ok.injEq] at h
    subst h
    simp
  | cons l ls ih =>
    intro acc t h
    rw [List.foldlM_cons] at h
    obtain ⟨acc', hstep, hrest⟩ := except_bind_eq_ok.mp h
    rw [dnei78Step, except_bind_eq_ok] at hstep
    obtain ⟨mx, hmx, hstep2⟩ := hstep
    rw [except_bind_eq_ok] at hstep2
    obtain ⟨my, hmy, hstep3⟩ := hstep2
    simp only [except_pure_eq, Except.ok.injEq] at hstep3
    subst hstep3
    obtain ⟨h1, h2, h3, h4, h5⟩ := ih _ _ hrest
    have hfx : (fun a => (mx.lookup a).getD 0 * (my.lookup a).getD 0) =
        fun a => alleleFrqAt pmgc l [g1] a * alleleFrqAt pmgc l [g2] a :=
      funext fun a => by rw [frq_lookup hmx a, frq_lookup hmy a]
    have hfx2 : (fun a => (mx.lookup a).getD 0 ^ 2) =
        fun a => alleleFrqAt pmgc l [g1] a ^ 2 :=
      funext fun a => by rw [frq_lookup hmx a]
    have hfy2 : (fun a => (my.lookup a).getD 0 ^ 2) =
        fun a => alleleFrqAt pmgc l [g2] a ^ 2 :=
      funext fun a => by rw [frq_lookup hmy a]
    refine ⟨?_, ?_, ?_, ?_, ?_⟩
    · rw [h1]
      simp only [List.map_cons, List.sum_cons, ← hfx]
      ring
    · rw [h2]
      simp only [List.map_cons, List.sum_cons, ← hfx2]
      ring
    · rw [h3]
      simp only [List.map_cons, List.sum_cons, ← hfy2]
      ring
    · rw [h4]
      simp only [List.map_cons, List.sum_cons]
      omega
    · rw [h5]
      simp only [List.map_cons, List.sum_cons]
      omega

/-- C3: a successful Nei 1978 accumulation carries exactly the summed
cross products, summed squared frequencies and per-group total gamete
counts over all requested loci, and the distance returned on it is
-ln of the summed similarity over the square root of the product of the
two unbiased corrections (2nJ-1)/(2n-1). -/
theorem dnei78_closed_form (pmgc : PolymorphismMultiGContainer)
    (locusPositions : List Nat) (grp1 grp2 : Nat) (t : Nei78Acc)
    (ht : dnei78Acc pmgc locusPositions grp1 grp2 = .ok t) :
    t.sxy = (locusPositions.map fun l =>
      (((gameteListAt pmgc l [grp1, grp2]).dedup).map fun a =>
        alleleFrqAt pmgc l [grp1] a * alleleFrqAt pmgc l [grp2] a).sum).sum ∧
    t.jx = (locusPositions.map fun l =>
      (((gameteListAt pmgc l [grp1, grp2]).dedup).map fun a =>
        alleleFrqAt pmgc l [grp1] a ^ 2).sum).sum ∧
    t.jy = (locusPositions.map fun l =>
      (((gameteListAt pmgc l [grp1, grp2]).dedup).map fun a =>
        alleleFrqAt pmgc l [grp2] a ^ 2).sum).sum ∧
    t.nx = (locusPositions.map fun l => (gameteListAt pmgc l [grp1]).length).sum ∧
    t.ny = (locusPositions.map fun l => (gameteListAt pmgc l [grp2]).length).sum ∧
    (¬(t.jx = 0 ∨ t.jy = 0) →
      ¬(t.sxy ≤ 0 ∨ nei78Correction t.nx t.jx ≤ 0 ∨
          nei78Correction t.ny t.jy ≤ 0) →
      getDnei78 pmgc locusPositions grp1 grp2 =
        .ok (-Real.log ((t.sxy : ℝ) / Real.sqrt
          ((((2 * (t.nx : ℚ) * t.jx - 1) / (2 * (t.nx : ℚ) - 1) : ℚ) : ℝ) *
           (((2 * (t.ny : ℚ) * t.jy - 1) / (2 * (t.ny : ℚ) - 1) : ℚ) : ℝ))))) := by
  obtain ⟨h1, h2, h3, h4, h5⟩ := dnei78Acc_fields pmgc grp1 grp2 locusPositions
    ⟨0, 0, 0, 0, 0⟩ t ht
  simp only [zero_add] at h1 h2 h3 h4 h5
  refine ⟨h1, h2, h3, h4, h5, ?_⟩
  intro hz hdom
  rw [getDnei78, ht, except_ok_bind, if_neg hz, if_neg hdom, except_pure_eq]
  simp only [nei78Correction]

/-- Witness for C3 on the concrete container: the accumulated quantities
are (3/8, 5/8, 5/8, 4, 4) and the distance result is the corrected
closed form with 4/7 corrections. -/
theorem dnei78_closed_form_witness :
    getDnei78 Cex [0] 1 2 =
      .ok (-Real.log (((3/8 : ℚ) : ℝ) / Real.sqrt
        ((((2 * ((4 : Nat) : ℚ) * (5/8) - 1) / (2 * ((4 : Nat) : ℚ) - 1) : ℚ) : ℝ) *
         (((2 * ((4 : Nat) : ℚ) * (5/8) - 1) / (2 * ((4 : Nat) : ℚ) - 1) : ℚ) : ℝ)))) :=
  (dnei78_closed_form Cex [0] 1 2 ⟨3/8, 5/8, 5/8, 4, 4⟩ (by decide!)).2.2.2.2.2
    (by decide!) (by decide!)

/-- The unordered pairs enumerated by the matrix assembler are strictly
increasing in their two positions. -/
theorem pairsBelow_fst_lt_snd (n : Nat) : ∀ p ∈ pairsBelow n, p.1 < p.2 := by
  intro p hp
  simp only [pairsBelow, List.mem_flatMap, List.mem_map, List.mem_range] at hp
  obtain ⟨j, hj, i, hi, hpe⟩ := hp
  subst hpe
  exact hi

/-- Writing one pair distance symmetrically preserves the symmetry of the
matrix. -/
theorem setSym_comm (m : Nat → Nat → ℝ) (i j : Nat) (d : ℝ)
    (hm : ∀ u v, m u v = m v u) : ∀ u v, setSym m i j d u v = setSym m i j d v u := by
  intro u v
  simp only [setSym]
  by_cases h : (u = i ∧ v = j) ∨ (u = j ∧ v = i)
  · rw [if_pos h, if_pos (by tauto)]
  · rw [if_neg h, if_neg (by tauto)]
    exact hm u v

/-- Writing one off-diagonal pair distance leaves the zero diagonal
untouched. -/
theorem setSym_diag (m : Nat → Nat → ℝ) (i j : Nat) (d : ℝ) (hij : i ≠ j)
    (hm : ∀ u, m u u = 0) : ∀ u, setSym m i j d u u = 0 := by
  intro u
  simp only [setSym]
  rw [if_neg ?hcon]
  · exact hm u
  case hcon =>
    intro hcon
    rcases hcon with ⟨h1, h2⟩ | ⟨h1, h2⟩ <;> omega

/-- The pair fold of the matrix assembler keeps symmetry and the zero
diagonal whatever the pair distances do, error results reading as the
all-zero matrix. -/
theorem foldPairs_symmetric (pmgc : PolymorphismMultiGContainer)
    (locusPositions : List Nat) (method : String) (groups : List Nat) :
    ∀ ps : List (Nat × Nat), (∀ p ∈ ps, p.1 ≠ p.2) →
    ∀ m : Nat → Nat → ℝ, (∀ u v, m u v = m v u) → (∀ u, m u u = 0) →
    ∀ i j,
      matGet (ps.foldlM (fun m pr => do
        let d ← pairDistance pmgc locusPositions method
          (groups.getD pr.1 0) (groups.getD pr.2 0)
        pure (setSym m pr.1 pr.2 d)) m) i j =
      matGet (ps.foldlM (fun m pr => do
        let d ← pairDistance pmgc locusPositions method
          (groups.getD pr.1 0) (groups.getD pr.2 0)
        pure (setSym m pr.1 pr.2 d)) m) j i ∧
      matGet (ps.foldlM (fun m pr => do
        let d ← pairDistance pmgc locusPositions method
          (groups.getD pr.1 0) (groups.getD pr.2 0)
        pure (setSym m pr.1 pr.2 d)) m) i i = 0 := by
  intro ps
  induction ps with
  | nil =>
    intro hne m hsym hdiag i j
    simp only [List.foldlM_nil, except_pure_eq, matGet]
    exact ⟨hsym i j, hdiag i⟩
  | cons p ps ih =>
    intro hne m hsym hdiag i j
    rw [List.foldlM_cons]
    cases hd : pairDistance pmgc locusPositions method
        (groups.getD p.1 0) (groups.getD p.2 0) with
    | error e =>
      simp [hd, matGet]
    | ok d =>
      simp only [hd, except_ok_bind, except_pure_eq]
      exact ih (fun q hq => hne q (List.mem_cons_of_mem p hq))
        (setSym m p.1 p.2 d)
        (setSym_comm m p.1 p.2 d hsym)
        (setSym_diag m p.1 p.2 d (hne p (List.mem_cons_self p ps)) hdiag)
        i j

/-- C9: for a container with at least 2 groups and a recognized distance
method, the returned distance matrix is symmetric and has zero on every
diagonal entry. -/
theorem distanceMatrix_symmetric_zero_diagonal
    (pmgc : PolymorphismMultiGContainer) (locusPositions groups : List Nat)
    (method : String) (hg : 2 ≤ groups.length)
    (hrec : recognizedMethods.contains method = true) :
    ∀ i j,
      matGet (getDistanceMatrix pmgc locusPositions groups method) i j =
        matGet (getDistanceMatrix pmgc locusPositions groups method) j i ∧
      matGet (getDistanceMatrix pmgc locusPositions groups method) i i = 0 := by
  intro i j
  rw [getDistanceMatrix, if_neg (by rw [hrec]; simp)]
  exact foldPairs_symmetric pmgc locusPositions method groups
    (pairsBelow groups.length)
    (fun p hp => Nat.ne_of_lt (pairsBelow_fst_lt_snd groups.length p hp))
    (fun _ _ => 0) (fun u v => rfl) (fun u => rfl) i j

/-- Witness for C9 on the concrete container with the Weir and Cockerham
pairwise-theta method. -/
theorem distanceMatrix_symmetric_zero_diagonal_witness :
    matGet (getDistanceMatrix Cex [0] [1, 2] "Fst-WC") 0 1 =
      matGet (getDistanceMatrix Cex [0] [1, 2] "Fst-WC") 1 0 ∧
    matGet (getDistanceMatrix Cex [0] [1, 2] "Fst-WC") 0 0 = 0 :=
  distanceMatrix_symmetric_zero_diagonal Cex [0] [1, 2] "Fst-WC"
    (by decide!) (by decide!) 0 1

end BppPopGen
